import Mathlib

/-!
Shallow embedding of the output-canonicalization and fixture-management
helpers of `suite/testcommon.py`, together with theorems settling the
frozen claims about them.

Strings are modelled as `List Char`.  Python's `\d` character class and
`sorted` comparison are modelled over code points (the test corpus is
ASCII).  Filesystem state for the `Builder` class is modelled as an
explicit record of existing paths and available zip archives.
-/

namespace TestCommon

/-- `startsWith pat s` holds when `pat` is an initial segment of `s`
(Python's `str.startswith` / pattern-at-position check). -/
def startsWith : List Char → List Char → Bool
  | [], _ => true
  | _ :: _, [] => false
  | p :: ps, c :: cs => p == c && startsWith ps cs

/-- Lexicographic comparison of strings by code point, the order used by
Python's `sorted` on `str`. -/
def lexLe : List Char → List Char → Bool
  | [], _ => true
  | _ :: _, [] => false
  | a :: as, b :: bs => if a = b then lexLe as bs else decide (a < b)

/-- `lexLe` as a relation, for use with `List.insertionSort`. -/
def strLe (a b : List Char) : Prop := lexLe a b = true

instance : DecidableRel strLe :=
  fun a b => inferInstanceAs (Decidable (lexLe a b = true))

/-- Stable sort by `lexLe`: the effect of Python's `sorted` on a list of
strings. -/
def sortLe (l : List (List Char)) : List (List Char) :=
  List.insertionSort strLe l

/- ### `fixOutput` (testcommon.py lines 24-46)

The regular expression is `((?<=[\[ ])0x[\da-f]+L|[\d]+L)`: an alternation
whose first branch is a hexadecimal literal guarded by a lookbehind for
`[` or a space, and whose second branch is a bare decimal literal; both
branches end in the legacy long suffix `L`.  `re.split` with the capturing
group keeps the matched literals between the unmatched pieces. -/

/-- The character class `[\da-f]` (ASCII digits and lowercase `a`-`f`). -/
def isHexLower (c : Char) : Bool := c.isDigit || ('a' ≤ c && c ≤ 'f')

/-- Attempt of the first alternative `(?<=[\[ ])0x[\da-f]+L` at the current
position.  `prev` is the character immediately before the position (`none`
at the start of the string).  Returns the matched text and the rest.
Greedy `[\da-f]+` never backtracks usefully because `L` is not in the
class, so the match takes the maximal run of class characters. -/
def hexAltAt (prev : Option Char) (s : List Char) : Option (List Char × List Char) :=
  if prev = some '[' ∨ prev = some ' ' then
    match s with
    | c0 :: c1 :: t =>
      if c0 = '0' ∧ c1 = 'x' then
        match t.drop (t.takeWhile isHexLower).length with
        | c2 :: r =>
          if c2 = 'L' ∧ t.takeWhile isHexLower ≠ [] then
            some (c0 :: c1 :: (t.takeWhile isHexLower ++ [c2]), r)
          else none
        | [] => none
      else none
    | _ => none
  else none

/-- Attempt of the second alternative `[\d]+L` at the current position.
No lookbehind guards this branch. -/
def decAltAt (s : List Char) : Option (List Char × List Char) :=
  match s.drop (s.takeWhile Char.isDigit).length with
  | c :: r =>
    if c = 'L' ∧ s.takeWhile Char.isDigit ≠ [] then
      some (s.takeWhile Char.isDigit ++ [c], r)
    else none
  | [] => none

/-- Attempt of the whole alternation at the current position: the
hexadecimal branch is tried first, as in the regular expression. -/
def matchAt (prev : Option Char) (s : List Char) : Option (List Char × List Char) :=
  match hexAltAt prev s with
  | some m => some m
  | none => decAltAt s

/-- Fuelled scanner implementing `re.split` with the long-literal pattern:
produces the alternating list of unmatched pieces and matched literals.
`acc` is the current unmatched piece, reversed.  Every match ends in `L`,
so after a match the previous character is `L`. -/
def scanSplitF : Nat → Option Char → List Char → List Char → List (List Char)
  | 0, _, s, acc => [acc.reverse ++ s]
  | fuel + 1, prev, s, acc =>
    match s with
    | [] => [acc.reverse]
    | c :: rest =>
      match matchAt prev (c :: rest) with
      | some (m, r) => acc.reverse :: m :: scanSplitF fuel (some 'L') r []
      | none => scanSplitF fuel (some c) rest (c :: acc)

/-- `re.split(r"((?<=[\[ ])0x[\da-f]+L|[\d]+L)", elem)`. -/
def splitLongs (s : List Char) : List (List Char) :=
  scanSplitF s.length none s []

/-- Second pass of `fixOutput`: an item of length `> 1` whose last
character is `L` loses that character (`item[:-1]`). -/
def stripL (item : List Char) : List Char :=
  if item.length > 1 ∧ item.getLast? = some 'L' then item.dropLast else item

/-- `fixOutput` on one string element: split, strip trailing `L` from each
piece, rejoin. -/
def fixElem (s : List Char) : List Char :=
  ((splitLongs s).map stripL).flatten

/-- An element of the list passed to `fixOutput`: a string or an opaque
non-string (modelled by a tag). -/
inductive PyElem where
  | str : List Char → PyElem
  | other : Nat → PyElem
deriving DecidableEq

/-- `fixOutput` (testcommon.py lines 24-46): string elements are rewritten
by `fixElem`, non-string elements pass through unchanged. -/
def fixOutput (l : List PyElem) : List PyElem :=
  l.map fun e =>
    match e with
    | .str s => .str (fixElem s)
    | .other n => .other n

/-- Decidable check that an element is a non-string or a string not
containing the character `L`. -/
def noL : PyElem → Bool
  | .str s => !s.contains 'L'
  | .other _ => true

/-- Scan of a string for a position where the long-literal pattern
matches, tracking the preceding character: `hasLitB none s = false` says
the element contains no suffixed literal. -/
def hasLitB (prev : Option Char) (s : List Char) : Bool :=
  match s with
  | [] => (matchAt prev []).isSome
  | c :: rest => (matchAt prev (c :: rest)).isSome || hasLitB (some c) rest

/- ### `fixSet` (testcommon.py lines 50-56)

The regular expression is `((?<=<in set\(\[).*(?=\]\)>))`: a capturing
group around `.*` (greedy, not matching newline), guarded by a lookbehind
for the literal `<in set([` and a lookahead for the literal `])>`.
Greediness means the content runs to the last `])>` reachable without
crossing a newline. -/

/-- The lookbehind text `<in set([`. -/
def setOpen : List Char := ['<', 'i', 'n', ' ', 's', 'e', 't', '(', '[']

/-- `setOpen` reversed, for checking the lookbehind against the reversed
list of already-consumed characters. -/
def revOpen : List Char := ['[', '(', 't', 'e', 's', ' ', 'n', 'i', '<']

/-- The lookahead text `])>`. -/
def setClose : List Char := [']', ')', '>']

/-- Largest `k ≤ maxk` such that `])>` starts at offset `k` of `s`: the
content length chosen by the greedy `.*` before the lookahead. -/
def lastCloseIdx (s : List Char) : Nat → Option Nat
  | 0 => if startsWith setClose s then some 0 else none
  | k + 1 =>
    if startsWith setClose (s.drop (k + 1)) then some (k + 1)
    else lastCloseIdx s k

/-- Attempt of the `fixSet` pattern at the current position.  `acc` is the
reversed list of characters before the position.  Returns the length of
the matched content. -/
def setMatchAt (acc s : List Char) : Option Nat :=
  if startsWith revOpen acc then
    lastCloseIdx s (s.takeWhile (fun c => !(c = '\n'))).length
  else none

/-- Fuelled scanner implementing `re.split` with the `fixSet` pattern.
`acc` is the reversed list of all consumed characters (for the
lookbehind), `piece` the current unmatched piece, reversed.  A zero-width
match is emitted and the scan advances one character, as `re.split` does
on empty matches. -/
def scanSetF : Nat → List Char → List Char → List Char → List (List Char)
  | 0, _, s, piece => [piece.reverse ++ s]
  | fuel + 1, acc, s, piece =>
    match s with
    | [] => [piece.reverse]
    | c :: rest =>
      match setMatchAt acc (c :: rest) with
      | some k =>
        if k = 0 then piece.reverse :: [] :: scanSetF fuel (c :: acc) rest [c]
        else
          piece.reverse :: (c :: rest).take k ::
            scanSetF fuel (((c :: rest).take k).reverse ++ acc) ((c :: rest).drop k) []
      | none => scanSetF fuel (c :: acc) rest (c :: piece)

/-- `re.split(r"((?<=<in set\(\[).*(?=\]\)>))", string)`. -/
def splitSet (s : List Char) : List (List Char) :=
  scanSetF s.length [] s []

/-- `string.split(', ')`: split on the exact two-character separator,
non-overlapping, left to right. -/
def splitCS : List Char → List Char → List (List Char)
  | [], piece => [piece.reverse]
  | [c], piece => [(c :: piece).reverse]
  | c1 :: c2 :: rest, piece =>
    if c1 = ',' ∧ c2 = ' ' then piece.reverse :: splitCS rest []
    else splitCS (c2 :: rest) (c1 :: piece)

/-- `', '.join(...)`. -/
def joinCS : List (List Char) → List Char
  | [] => []
  | [m] => m
  | m :: rest => m ++ ',' :: ' ' :: joinCS rest

/-- `fixSet` (testcommon.py lines 50-56): if the pattern matched, the
first three pieces are the prefix, the content, and the suffix; the
content's comma-and-space-separated members are sorted and rejoined.
Otherwise the string is returned unchanged. -/
def fixSet (s : List Char) : List Char :=
  match splitSet s with
  | s0 :: s1 :: s2 :: _ => s0 ++ joinCS (sortLe (splitCS s1 [])) ++ s2
  | _ => s

/- ### `remove_low_confidence` (testcommon.py lines 71-75) -/

/-- Fuelled `str.replace(pat, '')`: remove every non-overlapping
occurrence of `pat`, scanning left to right and continuing after each
removal. -/
def removeAllF (pat : List Char) : Nat → List Char → List Char
  | 0, s => s
  | fuel + 1, s =>
    match s with
    | [] => []
    | c :: rest =>
      if pat ≠ [] ∧ startsWith pat (c :: rest) then
        removeAllF pat fuel ((c :: rest).drop pat.length)
      else c :: removeAllF pat fuel rest

/-- `type_string.replace(pat, '')`. -/
def removeAll (pat s : List Char) : List Char :=
  removeAllF pat s.length s

/-- `remove_low_confidence`: for each token in `["int32_t", "void"]`, in
that order, remove every occurrence of the token followed by a space. -/
def remove_low_confidence (s : List Char) : List Char :=
  removeAll ("void ".data) (removeAll ("int32_t ".data) s)

/- ### `Builder` (testcommon.py lines 77-99)

Filesystem state is modelled explicitly: which paths exist, and which zip
archives are available together with the paths their extraction creates.
`unpackage_file` opens the archive `path + ".zip"` when the bare path is
absent (raising `FileNotFoundError` if the archive is missing, surfaced in
the spec as `FixtureMissing`), extracts it, and asserts the path now
exists.  `delete_package` is `os.unlink`, which raises if the path is
absent. -/

structure FS where
  pathIn : String → Bool
  archive : String → Option (List String)

inductive FsError where
  /-- `ZipFile(path + ".zip")` raised `FileNotFoundError`: neither the
  bare path nor its archive exists (`FixtureMissing` in the spec). -/
  | fixtureMissing
  /-- `assert os.path.exists(path)` failed after extraction. -/
  | assertFailed
  /-- `os.unlink` raised `FileNotFoundError`. -/
  | fileNotFound
deriving DecidableEq

/-- `zf.extractall(...)`: every member path of the archive now exists. -/
def extractAll (fs : FS) (members : List String) : FS :=
  { fs with pathIn := fun p => fs.pathIn p || members.contains p }

/-- `os.path.join(os.path.dirname(__file__), self.test_store, filename)`,
relative to the suite directory. -/
def storePath (store name : String) : String := store ++ "/" ++ name

/-- `Builder.unpackage_file` (testcommon.py lines 89-95): if the path is
absent, open the archive `path + ".zip"` (error when it is missing),
extract it, and assert that the path now exists. -/
def unpackage_file (fs : FS) (store name : String) : Except FsError (String × FS) :=
  if fs.pathIn (storePath store name) then .ok (storePath store name, fs)
  else
    match fs.archive (storePath store name ++ ".zip") with
    | none => .error .fixtureMissing
    | some members =>
      if (extractAll fs members).pathIn (storePath store name) then
        .ok (storePath store name, extractAll fs members)
      else .error .assertFailed

/-- `Builder.delete_package` (testcommon.py lines 97-99): `os.unlink`,
which removes the path and raises when it is absent. -/
def delete_package (fs : FS) (store name : String) : Except FsError FS :=
  if fs.pathIn (storePath store name) then
    .ok { fs with pathIn := fun p => fs.pathIn p && !(p == storePath store name) }
  else .error .fileNotFound

/-- A concrete sample store holding only the archive
`"store/sample.zip"`, used by witnesses. -/
def fsA : FS :=
  { pathIn := fun _ => false
    archive := fun p => if p == "store/sample.zip" then some ["store/sample"] else none }

/- ### `Builder.methods` (testcommon.py lines 82-87)

`inspect.getmembers(self, predicate=inspect.ismethod)` returns the
object's methods as `(name, value)` pairs sorted by name; attribute names
are unique.  An object is modelled by the list of its method names. -/

/-- `Builder.methods`: the method names, in `getmembers`'s sorted order,
filtered to those starting with `"test_"`. -/
def methods (obj : List (List Char)) : List (List Char) :=
  (sortLe obj).filter (fun n => startsWith ("test_".data) n)

/-! ## Theorems -/

/-! ### `fixOutput`: supporting lemmas -/

theorem hexAltAt_mem_L {prev : Option Char} {s m r : List Char}
    (h : hexAltAt prev s = some (m, r)) : 'L' ∈ s := by
  unfold hexAltAt at h
  split at h
  · split at h
    · split at h
      · split at h
        · split at h
          · rename_i c2 r' heq hc
            obtain ⟨rfl, -⟩ := hc
            have h1 := List.mem_cons_self 'L' r'
            rw [← heq] at h1
            exact List.mem_cons_of_mem _ (List.mem_cons_of_mem _
              (List.drop_subset _ _ h1))
          · exact absurd h (by simp)
        · exact absurd h (by simp)
      · exact absurd h (by simp)
    · exact absurd h (by simp)
  · exact absurd h (by simp)

theorem decAltAt_mem_L {s m r : List Char}
    (h : decAltAt s = some (m, r)) : 'L' ∈ s := by
  unfold decAltAt at h
  split at h
  · split at h
    · rename_i c r' heq hc
      obtain ⟨rfl, -⟩ := hc
      have h1 := List.mem_cons_self 'L' r'
      rw [← heq] at h1
      exact List.drop_subset _ _ h1
    · exact absurd h (by simp)
  · exact absurd h (by simp)

theorem matchAt_none_of_no_L {prev : Option Char} {s : List Char}
    (hL : 'L' ∉ s) : matchAt prev s = none := by
  unfold matchAt
  cases hh : hexAltAt prev s with
  | some p =>
    obtain ⟨m, r⟩ := p
    exact absurd (hexAltAt_mem_L hh) hL
  | none =>
    cases hd : decAltAt s with
    | some p =>
      obtain ⟨m, r⟩ := p
      exact absurd (decAltAt_mem_L hd) hL
    | none => rfl

theorem scanSplitF_no_L {s : List Char} :
    ∀ (fuel : Nat) (prev : Option Char) (acc : List Char),
      'L' ∉ s → s.length ≤ fuel →
      scanSplitF fuel prev s acc = [acc.reverse ++ s] := by
  induction s with
  | nil =>
    intro fuel prev acc _ _
    cases fuel <;> simp [scanSplitF]
  | cons c rest ih =>
    intro fuel prev acc hL hf
    cases fuel with
    | zero => simp at hf
    | succ f =>
      have hm : matchAt prev (c :: rest) = none := matchAt_none_of_no_L hL
      simp only [scanSplitF, hm]
      rw [ih f (some c) (c :: acc) (fun hmem => hL (List.mem_cons_of_mem _ hmem))
        (by simpa using hf)]
      simp

theorem stripL_of_no_L {s : List Char} (hL : 'L' ∉ s) : stripL s = s := by
  unfold stripL
  have hcond : ¬(s.length > 1 ∧ s.getLast? = some 'L') := by
    rintro ⟨-, hlast⟩
    obtain ⟨hne, heq⟩ := List.mem_getLast?_eq_getLast (Option.mem_def.mpr hlast)
    have := List.getLast_mem hne
    rw [← heq] at this
    exact hL this
  simp [hcond]

theorem fixElem_of_no_L {s : List Char} (hL : 'L' ∉ s) : fixElem s = s := by
  unfold fixElem splitLongs
  rw [scanSplitF_no_L s.length none [] hL (le_refl _)]
  simp [stripL_of_no_L hL]

theorem fixOutput_id_of_no_L (l : List PyElem) (h : ∀ e ∈ l, noL e = true) :
    fixOutput l = l := by
  induction l with
  | nil => rfl
  | cons e rest ih =>
    have he : noL e = true := h e (List.mem_cons_self _ _)
    have hrest := ih fun e' he' => h e' (List.mem_cons_of_mem _ he')
    unfold fixOutput at hrest ⊢
    simp only [List.map_cons, hrest]
    cases e with
    | str s =>
      have hs : 'L' ∉ s := by simpa [noL] using he
      simp [fixElem_of_no_L hs]
    | other n => simp

theorem scanSplitF_no_lit {s : List Char} :
    ∀ (fuel : Nat) (prev : Option Char) (acc : List Char),
      hasLitB prev s = false → s.length ≤ fuel →
      scanSplitF fuel prev s acc = [acc.reverse ++ s] := by
  induction s with
  | nil =>
    intro fuel prev acc _ _
    cases fuel <;> simp [scanSplitF]
  | cons c rest ih =>
    intro fuel prev acc hlit hf
    cases fuel with
    | zero => simp at hf
    | succ f =>
      simp only [hasLitB, Bool.or_eq_false_iff] at hlit
      obtain ⟨hm0, hlit⟩ := hlit
      have hm : matchAt prev (c :: rest) = none := by
        cases h : matchAt prev (c :: rest) <;> simp_all
      simp only [scanSplitF, hm]
      rw [ih f (some c) (c :: acc) hlit (by simpa using hf)]
      simp

theorem fixElem_of_no_lit {s : List Char} (hlit : hasLitB none s = false)
    (hend : ¬(s.length > 1 ∧ s.getLast? = some 'L')) : fixElem s = s := by
  unfold fixElem splitLongs
  rw [scanSplitF_no_lit s.length none [] hlit (le_refl _)]
  simp only [List.reverse_nil, List.nil_append, List.map_cons, List.map_nil]
  unfold stripL
  simp [hend]

/-! ### Claim theorems about `fixOutput` -/

/-- C1 (counterexample): `fixOutput` is not idempotent: on `["12LL"]` one
application yields `["12L"]` and a second application changes it again to
`["12"]`. -/
theorem fixOutput_idem_cex :
    fixOutput (fixOutput [PyElem.str ("12LL".data)])
      ≠ fixOutput [PyElem.str ("12LL".data)] := by decide

/-- C1 (amended): on sequences whose string elements do not contain the
character `L`, `fixOutput` is the identity, and in particular idempotent:
`fixOutput (fixOutput l) = fixOutput l`. -/
theorem fixOutput_idem_of_noL (l : List PyElem) (h : ∀ e ∈ l, noL e = true) :
    fixOutput l = l ∧ fixOutput (fixOutput l) = fixOutput l :=
  have h1 := fixOutput_id_of_no_L l h
  ⟨h1, by simp only [h1]⟩

/-- Witness for C1 (amended) at a concrete mixed sequence. -/
theorem fixOutput_idem_of_noL_witness :
    fixOutput [PyElem.str ("abc".data), PyElem.other 0]
      = [PyElem.str ("abc".data), PyElem.other 0] :=
  (fixOutput_idem_of_noL [PyElem.str ("abc".data), PyElem.other 0] (by decide)).1

/-- C2 (counterexample): the suffixed decimal literal `5L` in `"a5L"` is
preceded by `a`, neither `[` nor a space, yet `fixOutput` strips its
suffix: the element is not left unchanged. -/
theorem fixOutput_guard_cex :
    fixOutput [PyElem.str ("a5L".data)] = [PyElem.str ("a5".data)]
    ∧ fixOutput [PyElem.str ("a5L".data)] ≠ [PyElem.str ("a5L".data)] := by decide

/-- C2 (amended): the `[`-or-space lookbehind guard applies only to the
hexadecimal alternative of the pattern — that alternative never matches
after any other preceding character — while a decimal literal's suffix is
stripped regardless of what precedes it. -/
theorem fixOutput_guard_amended :
    (∀ (p : Option Char) (s : List Char), p ≠ some '[' → p ≠ some ' ' →
      hexAltAt p s = none)
    ∧ fixOutput [PyElem.str ("a5L".data)] = [PyElem.str ("a5".data)] := by
  constructor
  · intro p s h1 h2
    unfold hexAltAt
    rw [if_neg (by tauto)]
  · decide

/-- Witness for C2 (amended): the hexadecimal alternative rejects `0x1L`
after the character `a`. -/
theorem fixOutput_guard_amended_witness :
    hexAltAt (some 'a') ("0x1L".data) = none :=
  fixOutput_guard_amended.1 (some 'a') ("0x1L".data) (by decide) (by decide)

/-- C8 (counterexample): `"LL"` contains no suffixed literal (the pattern
matches at no position), yet `fixOutput` is not a no-op on it: the
resolution pass strips the trailing `L`. -/
theorem fixOutput_noop_cex :
    fixOutput [PyElem.str ("LL".data)] = [PyElem.str ("L".data)]
    ∧ fixOutput [PyElem.str ("LL".data)] ≠ [PyElem.str ("LL".data)]
    ∧ hasLitB none ("LL".data) = false := by decide

/-- C8 (amended): the two concrete evaluations of the spec hold, and
`fixOutput` is a no-op on a string element at no position of which the
pattern matches, provided the element does not both have length greater
than one and end with `L`. -/
theorem fixOutput_examples :
    fixOutput [PyElem.str ("[0x10L, 5L]".data)] = [PyElem.str ("[0x10, 5]".data)]
    ∧ fixOutput [PyElem.str ("no literals here".data)]
        = [PyElem.str ("no literals here".data)]
    ∧ ∀ s : List Char, hasLitB none s = false →
        ¬(s.length > 1 ∧ s.getLast? = some 'L') →
        fixOutput [PyElem.str s] = [PyElem.str s] := by
  refine ⟨by decide, by decide, ?_⟩
  intro s h1 h2
  simp [fixOutput, fixElem_of_no_lit h1 h2]

/-- Witness for C8 (amended) at the concrete element `"x"`. -/
theorem fixOutput_examples_witness :
    fixOutput [PyElem.str ("x".data)] = [PyElem.str ("x".data)] :=
  fixOutput_examples.2.2 ("x".data) (by decide) (by decide)

/-- C10 (counterexample): in `"[0xABL"` the uppercase hexadecimal literal
is not matched by the pattern (and the decimal alternative does not apply),
yet its suffix `L` is stripped — by the resolution pass, because the
single unmatched segment ends in `L`. -/
theorem fixOutput_upper_cex :
    fixOutput [PyElem.str ("[0xABL".data)] = [PyElem.str ("[0xAB".data)]
    ∧ fixOutput [PyElem.str ("[0xABL".data)] ≠ [PyElem.str ("[0xABL".data)] := by decide

/-- C10 (amended): matching is lowercase-only — the whole pattern never
matches at a position starting `0xA…` — but `fixOutput` may still strip a
trailing `L`: `["[0xABL"]` becomes `["[0xAB"]`, while the same literal not
at the end of its element is left unchanged. -/
theorem fixOutput_upper_amended :
    (∀ (prev : Option Char) (rest : List Char),
      matchAt prev ('0' :: 'x' :: 'A' :: rest) = none)
    ∧ fixOutput [PyElem.str ("[0xABL".data)] = [PyElem.str ("[0xAB".data)]
    ∧ fixOutput [PyElem.str ("[0xABL x".data)] = [PyElem.str ("[0xABL x".data)] := by
  refine ⟨?_, by decide, by decide⟩
  intro prev rest
  have hA : isHexLower 'A' = false := by decide
  have h0 : Char.isDigit '0' = true := by decide
  have hx : Char.isDigit 'x' = false := by decide
  unfold matchAt hexAltAt decAltAt
  simp [List.takeWhile_cons, hA, h0, hx]

/-! ### `remove_low_confidence` -/

theorem startsWith_append_self (p t : List Char) : startsWith p (p ++ t) = true := by
  induction p with
  | nil => rfl
  | cons c cs ih => simp [startsWith, ih]

theorem removeAllF_cons (pat : List Char) (f : Nat) (c : Char) (rest : List Char) :
    removeAllF pat (f + 1) (c :: rest) =
      if pat ≠ [] ∧ startsWith pat (c :: rest) then
        removeAllF pat f ((c :: rest).drop pat.length)
      else c :: removeAllF pat f rest := rfl

theorem removeAllF_mono {pat : List Char} :
    ∀ (f : Nat) (s : List Char), s.length ≤ f →
      removeAllF pat (f + 1) s = removeAllF pat f s := by
  intro f
  induction f using Nat.strong_induction_on with
  | _ f ih =>
    intro s hf
    cases s with
    | nil => cases f <;> simp [removeAllF]
    | cons c rest =>
      cases f with
      | zero => simp at hf
      | succ g =>
        rw [removeAllF_cons, removeAllF_cons]
        by_cases hc : pat ≠ [] ∧ startsWith pat (c :: rest) = true
        · rw [if_pos hc, if_pos hc]
          have h1 : 1 ≤ pat.length := by
            cases hp : pat with
            | nil => exact absurd hp hc.1
            | cons a b => simp
          have hlen : ((c :: rest).drop pat.length).length ≤ g := by
            simp only [List.length_drop, List.length_cons]
            simp only [List.length_cons] at hf
            omega
          exact ih g (by omega) _ hlen
        · rw [if_neg hc, if_neg hc]
          have hlen : rest.length ≤ g := by
            simp only [List.length_cons] at hf; omega
          rw [ih g (by omega) rest hlen]

theorem removeAllF_add {pat : List Char} :
    ∀ (k : Nat) (s : List Char), removeAllF pat (s.length + k) s = removeAll pat s := by
  intro k
  induction k with
  | zero => intro s; rfl
  | succ n ih =>
    intro s
    rw [show s.length + (n + 1) = (s.length + n) + 1 from rfl,
      removeAllF_mono (s.length + n) s (by omega), ih]

theorem removeAll_self_append {pat : List Char} (hp : pat ≠ []) (s : List Char) :
    removeAll pat (pat ++ s) = removeAll pat s := by
  cases hpat : pat with
  | nil => exact absurd hpat hp
  | cons c cs =>
    show removeAllF (c :: cs) ((c :: cs) ++ s).length ((c :: cs) ++ s)
      = removeAll (c :: cs) s
    have hlen : ((c :: cs) ++ s).length = (s.length + cs.length) + 1 := by
      simp [List.length_append, List.length_cons]; omega
    have hsw : startsWith (c :: cs) (c :: (cs ++ s)) = true := by
      simpa using startsWith_append_self (c :: cs) s
    rw [hlen, show (c :: cs) ++ s = c :: (cs ++ s) from rfl, removeAllF_cons,
      if_pos ⟨by simp, hsw⟩,
      show c :: (cs ++ s) = (c :: cs) ++ s from rfl,
      show ((c :: cs) ++ s).drop (c :: cs).length = s from List.drop_left (c :: cs) s,
      removeAllF_add cs.length s]

/-- C7: `remove_low_confidence` removes every occurrence of `"int32_t "`
and then every occurrence of `"void "`, in that order; both concrete
evaluations of the spec hold, and removal applies at every position (a
leading occurrence of the token is always removed, wherever the scan
starts). -/
theorem remove_low_confidence_spec :
    remove_low_confidence ("int32_t foo void bar".data) = ("foo bar".data)
    ∧ remove_low_confidence ("int32_t a void b int32_t c void d".data) = ("a b c d".data)
    ∧ ∀ s : List Char,
        remove_low_confidence (("int32_t ".data) ++ s) = remove_low_confidence s := by
  refine ⟨by decide, by decide, ?_⟩
  intro s
  unfold remove_low_confidence
  rw [removeAll_self_append (by decide) s]

/-! ### `Builder`: fixture lifecycle and test catalog -/

/-- C4: `unpackage_file` returns, on success, the store path and a state
where it exists; it fails with the archive-missing error exactly when
neither the bare path nor the co-located `.zip` archive exists; and when
the path is absent but the archive is present and yields it, the archive
is extracted and the call succeeds with the extracted state. -/
theorem unpackage_file_spec (fs : FS) (store name : String) :
    (∀ p fs', unpackage_file fs store name = .ok (p, fs') →
      p = storePath store name ∧ fs'.pathIn p = true)
    ∧ (unpackage_file fs store name = .error .fixtureMissing
        ↔ fs.pathIn (storePath store name) = false
          ∧ fs.archive (storePath store name ++ ".zip") = none)
    ∧ (∀ members, fs.pathIn (storePath store name) = false →
        fs.archive (storePath store name ++ ".zip") = some members →
        storePath store name ∈ members →
        unpackage_file fs store name
          = .ok (storePath store name, extractAll fs members)) := by
  refine ⟨?_, ?_, ?_⟩
  · intro p fs' h
    unfold unpackage_file at h
    split at h
    · rename_i hin
      obtain ⟨rfl, rfl⟩ : storePath store name = p ∧ fs = fs' := by
        simpa using h
      exact ⟨rfl, hin⟩
    · split at h
      · exact absurd h (by simp)
      · split at h
        · rename_i hin2
          obtain ⟨rfl, rfl⟩ : storePath store name = p ∧ extractAll fs _ = fs' := by
            simpa using h
          exact ⟨rfl, hin2⟩
        · exact absurd h (by simp)
  · unfold unpackage_file
    constructor
    · intro h
      split at h
      · exact absurd h (by simp)
      · rename_i hin
        split at h
        · exact ⟨by simpa using hin, by assumption⟩
        · split at h
          · exact absurd h (by simp)
          · exact absurd h (by simp)
    · rintro ⟨h1, h2⟩
      rw [if_neg (by simp [h1]), h2]
  · intro members h1 h2 h3
    have hex : (extractAll fs members).pathIn (storePath store name) = true := by
      simp [extractAll, h1, h3]
    unfold unpackage_file
    rw [if_neg (by simp [h1]), h2]
    simp only [hex, if_true]

/-- Witness for C4: materializing `"sample"` with only `"sample.zip"`
present succeeds and the returned path exists afterwards. -/
theorem unpackage_file_spec_witness :
    unpackage_file fsA "store" "sample"
      = .ok ("store/sample", extractAll fsA ["store/sample"]) := by
  have h := (unpackage_file_spec fsA "store" "sample").2.2 ["store/sample"]
    rfl (by decide) (by decide)
  rw [h]
  rfl

/-- C5: `delete_package` removes a present artifact (the path no longer
exists in any state it returns), and raises a detectable error when the
artifact is absent at release time. -/
theorem delete_package_spec (fs : FS) (store name : String) :
    (∀ fs', delete_package fs store name = .ok fs' →
      fs'.pathIn (storePath store name) = false)
    ∧ (fs.pathIn (storePath store name) = true →
      delete_package fs store name
        = .ok { fs with pathIn := fun p => fs.pathIn p && !(p == storePath store name) })
    ∧ (fs.pathIn (storePath store name) = false →
      delete_package fs store name = .error .fileNotFound) := by
  refine ⟨?_, ?_, ?_⟩
  · intro fs' h
    unfold delete_package at h
    split at h
    · obtain rfl : _ = fs' := by simpa using h
      simp
    · exact absurd h (by simp)
  · intro hin
    unfold delete_package
    rw [if_pos hin]
  · intro hout
    unfold delete_package
    rw [if_neg (by simp [hout])]

/-- Witness for C5: a release with no prior materialize raises. -/
theorem delete_package_spec_witness :
    delete_package fsA "store" "sample" = .error .fileNotFound :=
  (delete_package_spec fsA "store" "sample").2.2 rfl

theorem sortLe_perm (l : List (List Char)) : (sortLe l).Perm l :=
  List.perm_insertionSort strLe l

/-- C6: the test catalog contains exactly the method names beginning with
`"test_"`, each at most once (order is the deterministic sorted order of
`inspect.getmembers`); the object with methods `test_a`, `test_b`,
`helper_c` yields exactly `[test_a, test_b]`. -/
theorem methods_spec (obj : List (List Char)) (hnd : obj.Nodup) :
    (∀ n, n ∈ methods obj ↔ n ∈ obj ∧ startsWith ("test_".data) n = true)
    ∧ (methods obj).Nodup
    ∧ methods [("test_b".data), ("helper_c".data), ("test_a".data)]
        = [("test_a".data), ("test_b".data)] := by
  refine ⟨?_, ?_, by decide⟩
  · intro n
    unfold methods
    rw [List.mem_filter, (sortLe_perm obj).mem_iff]
  · exact ((sortLe_perm obj).nodup_iff.mpr hnd).filter _

/-- Witness for C6 at the concrete object of the spec's scenario. -/
theorem methods_spec_witness :
    methods [("test_b".data), ("helper_c".data), ("test_a".data)]
      = [("test_a".data), ("test_b".data)] :=
  (methods_spec [("test_b".data), ("helper_c".data), ("test_a".data)] (by decide)).2.2

/-! ### `fixSet`: supporting lemmas -/

theorem startsWith_exists {p s : List Char} (h : startsWith p s = true) :
    ∃ t, s = p ++ t := by
  induction p generalizing s with
  | nil => exact ⟨s, rfl⟩
  | cons c cs ih =>
    cases s with
    | nil => simp [startsWith] at h
    | cons d ds =>
      simp only [startsWith, Bool.and_eq_true, beq_iff_eq] at h
      obtain ⟨rfl, h2⟩ := h
      obtain ⟨t, rfl⟩ := ih h2
      exact ⟨t, rfl⟩

theorem startsWith_refl (p : List Char) : startsWith p p = true := by
  have := startsWith_append_self p []
  simpa using this

theorem lastCloseIdx_succ (s : List Char) (k : Nat) :
    lastCloseIdx s (k + 1) =
      if startsWith setClose (s.drop (k + 1)) then some (k + 1)
      else lastCloseIdx s k := rfl

theorem lastCloseIdx_close {s : List Char} :
    ∀ {n k : Nat}, lastCloseIdx s n = some k →
      startsWith setClose (s.drop k) = true := by
  intro n
  induction n with
  | zero =>
    intro k h
    unfold lastCloseIdx at h
    split at h
    · obtain rfl : (0 : Nat) = k := by simpa using h
      simpa using (by assumption : startsWith setClose s = true)
    · exact absurd h (by simp)
  | succ m ih =>
    intro k h
    rw [lastCloseIdx_succ] at h
    split at h
    · obtain rfl : m + 1 = k := by simpa using h
      assumption
    · exact ih h

theorem setMatchAt_some {acc s : List Char} {k : Nat} (h : setMatchAt acc s = some k) :
    (∃ t, acc = revOpen ++ t) ∧ startsWith setClose (s.drop k) = true := by
  unfold setMatchAt at h
  split at h
  · exact ⟨startsWith_exists (by assumption), lastCloseIdx_close h⟩
  · exact absurd h (by simp)

theorem revOpen_reverse : revOpen.reverse = setOpen := by decide

theorem scanSetF_nil (f : Nat) (acc piece : List Char) :
    scanSetF f acc [] piece = [piece.reverse] := by
  cases f <;> simp [scanSetF]

theorem scanSetF_no_shape {s : List Char}
    (H : ¬ ∃ a b c, s = a ++ setOpen ++ b ++ setClose ++ c) :
    ∀ (rest : List Char) (fuel : Nat) (piece : List Char),
      s = piece.reverse ++ rest → rest.length ≤ fuel →
      scanSetF fuel piece rest piece = [piece.reverse ++ rest] := by
  intro rest
  induction rest with
  | nil =>
    intro fuel piece hs hf
    simp [scanSetF_nil]
  | cons c r ih =>
    intro fuel piece hs hf
    cases fuel with
    | zero => simp at hf
    | succ f =>
      have hm : setMatchAt piece (c :: r) = none := by
        cases hmm : setMatchAt piece (c :: r) with
        | none => rfl
        | some k =>
          obtain ⟨⟨t, rfl⟩, hcl⟩ := setMatchAt_some hmm
          obtain ⟨u, hu⟩ := startsWith_exists hcl
          refine absurd ?_ H
          refine ⟨t.reverse, (c :: r).take k, u, ?_⟩
          rw [hs, List.reverse_append, revOpen_reverse]
          conv_lhs => rw [← List.take_append_drop k (c :: r), hu]
          simp [List.append_assoc]
      simp only [scanSetF, hm]
      have hs' : s = (c :: piece).reverse ++ r := by
        rw [hs]; simp
      rw [ih f (c :: piece) hs' (by simpa using hf)]
      simp

theorem splitSet_no_shape {s : List Char}
    (H : ¬ ∃ a b c, s = a ++ setOpen ++ b ++ setClose ++ c) :
    splitSet s = [s] := by
  unfold splitSet
  have h := scanSetF_no_shape H s s.length [] rfl (le_refl _)
  simpa using h

/-- C9: `fixSet` is the identity on every string that does not contain
the shape `<in set([` … `])>` (no occurrence of the opening delimiter
later followed by the closing delimiter). -/
theorem fixSet_id_of_no_shape (s : List Char)
    (h : ¬ ∃ a b c, s = a ++ setOpen ++ b ++ setClose ++ c) :
    fixSet s = s := by
  unfold fixSet
  rw [splitSet_no_shape h]

/-- Witness for C9 at the concrete string `"x"` (too short to contain the
shape). -/
theorem fixSet_id_of_no_shape_witness : fixSet ("x".data) = ("x".data) :=
  fixSet_id_of_no_shape ("x".data) (by
    rintro ⟨a, b, c, heq⟩
    have hlen := congrArg List.length heq
    simp [setOpen, setClose] at hlen
    omega)


theorem setMatchAt_none_nil (s : List Char) : setMatchAt [] s = none := by
  unfold setMatchAt
  rw [if_neg]
  simp [startsWith, revOpen]

theorem setMatchAt_none_cons {x : Char} (t s : List Char) (hx : x ≠ '[') :
    setMatchAt (x :: t) s = none := by
  unfold setMatchAt
  rw [if_neg]
  simp only [revOpen, startsWith, Bool.and_eq_true, beq_iff_eq]
  rintro ⟨rfl, -⟩
  exact hx rfl

theorem scanSetF_step_none {f : Nat} {acc piece : List Char} {c : Char} {rest : List Char}
    (h : setMatchAt acc (c :: rest) = none) :
    scanSetF (f + 1) acc (c :: rest) piece = scanSetF f (c :: acc) rest (c :: piece) := by
  simp [scanSetF, h]

theorem scanSetF_step_match {f : Nat} {acc s piece : List Char} {k : Nat}
    (hs : s ≠ []) (hm : setMatchAt acc s = some k) (hk : k ≠ 0) :
    scanSetF (f + 1) acc s piece =
      piece.reverse :: s.take k ::
        scanSetF f ((s.take k).reverse ++ acc) (s.drop k) [] := by
  cases s with
  | nil => exact absurd rfl hs
  | cons c rest => simp [scanSetF, hm, hk]

theorem takeWhile_append_all {p : Char → Bool} {a : List Char}
    (h : ∀ c ∈ a, p c = true) (b : List Char) :
    (a ++ b).takeWhile p = a ++ b.takeWhile p := by
  induction a with
  | nil => rfl
  | cons c cs ih =>
    have hc : p c = true := h c (List.mem_cons_self _ _)
    simp [List.takeWhile_cons, hc, ih fun d hd => h d (List.mem_cons_of_mem _ hd)]

theorem lastCloseIdx_here {s : List Char} {n : Nat}
    (h : startsWith setClose (s.drop n) = true) : lastCloseIdx s n = some n := by
  cases n with
  | zero =>
    unfold lastCloseIdx
    rw [if_pos (by simpa using h)]
  | succ m => rw [lastCloseIdx_succ, if_pos h]

theorem lastCloseIdx_wrap (j : List Char) :
    lastCloseIdx (j ++ setClose) (j.length + 3) = some j.length := by
  have e3 : (j ++ setClose).drop (j.length + 3) = [] := by
    rw [List.drop_append 3]; rfl
  have e2 : (j ++ setClose).drop (j.length + 2) = ['>'] := by
    rw [List.drop_append 2]; rfl
  have e1 : (j ++ setClose).drop (j.length + 1) = [')', '>'] := by
    rw [List.drop_append 1]; rfl
  have e0 : (j ++ setClose).drop j.length = setClose := List.drop_left j setClose
  rw [show j.length + 3 = (j.length + 2) + 1 from rfl, lastCloseIdx_succ,
    if_neg (by rw [show (j.length + 2) + 1 = j.length + 3 from rfl, e3]; simp [startsWith, setClose]),
    show j.length + 2 = (j.length + 1) + 1 from rfl, lastCloseIdx_succ,
    if_neg (by rw [show (j.length + 1) + 1 = j.length + 2 from rfl, e2]; simp [startsWith, setClose]),
    show j.length + 1 = j.length + 1 from rfl, lastCloseIdx_succ,
    if_neg (by rw [e1]; simp [startsWith, setClose])]
  exact lastCloseIdx_here (by rw [e0]; exact startsWith_refl setClose)

theorem setMatchAt_wrap {j : List Char} (hnl : ∀ c ∈ j, c ≠ '\n') :
    setMatchAt revOpen (j ++ setClose) = some j.length := by
  unfold setMatchAt
  rw [if_pos (startsWith_refl revOpen)]
  have hrun : (j ++ setClose).takeWhile (fun c => !(c = '\n')) = j ++ setClose := by
    rw [takeWhile_append_all (fun c hc => by simp [hnl c hc]) setClose]
    rfl
  rw [hrun]
  have hlen : (j ++ setClose).length = j.length + 3 := by simp [setClose]
  rw [hlen]
  exact lastCloseIdx_wrap j

theorem splitSet_wrap {j : List Char} (hj : j ≠ [])
    (hsafe : ∀ c ∈ j, c ≠ '\n' ∧ c ≠ '[') :
    splitSet (setOpen ++ j ++ setClose) = [setOpen, j, setClose] := by
  rcases List.eq_nil_or_concat j with rfl | ⟨j', d, rfl⟩
  · exact absurd rfl hj
  · simp only [List.concat_eq_append] at hj hsafe ⊢
    unfold splitSet
    have hlen : (setOpen ++ (j' ++ [d]) ++ setClose).length = j'.length + 13 := by
      simp [setOpen, setClose]
    rw [hlen]
    have hd : d ≠ '[' := (hsafe d (by simp)).2
    have hm : setMatchAt revOpen ((j' ++ [d]) ++ setClose) = some (j' ++ [d]).length :=
      setMatchAt_wrap fun c hc => (hsafe c hc).1
    show scanSetF (j'.length + 13) []
      ('<' :: 'i' :: 'n' :: ' ' :: 's' :: 'e' :: 't' :: '(' :: '[' :: ((j' ++ [d]) ++ setClose)) []
      = [setOpen, j' ++ [d], setClose]
    rw [scanSetF_step_none (setMatchAt_none_nil _),
      scanSetF_step_none (setMatchAt_none_cons _ _ (by decide)),
      scanSetF_step_none (setMatchAt_none_cons _ _ (by decide)),
      scanSetF_step_none (setMatchAt_none_cons _ _ (by decide)),
      scanSetF_step_none (setMatchAt_none_cons _ _ (by decide)),
      scanSetF_step_none (setMatchAt_none_cons _ _ (by decide)),
      scanSetF_step_none (setMatchAt_none_cons _ _ (by decide)),
      scanSetF_step_none (setMatchAt_none_cons _ _ (by decide)),
      scanSetF_step_none (setMatchAt_none_cons _ _ (by decide))]
    show scanSetF (j'.length + 4) revOpen ((j' ++ [d]) ++ setClose) revOpen
      = [setOpen, j' ++ [d], setClose]
    rw [scanSetF_step_match (by simp) hm (by simp),
      List.take_left (j' ++ [d]) setClose, List.drop_left (j' ++ [d]) setClose,
      revOpen_reverse]
    have hrev : (j' ++ [d]).reverse = d :: j'.reverse := by simp
    rw [hrev]
    simp only [List.cons_append, setClose]
    rw [scanSetF_step_none (setMatchAt_none_cons _ _ hd),
      scanSetF_step_none (setMatchAt_none_cons _ _ (by decide)),
      scanSetF_step_none (setMatchAt_none_cons _ _ (by decide)),
      scanSetF_nil]
    simp


theorem splitCS_cons₂ (c1 c2 : Char) (rest piece : List Char) :
    splitCS (c1 :: c2 :: rest) piece =
      if c1 = ',' ∧ c2 = ' ' then piece.reverse :: splitCS rest []
      else splitCS (c2 :: rest) (c1 :: piece) := rfl

theorem splitCS_skip {m : List Char} (hm : ∀ c ∈ m, c ≠ ',') :
    ∀ (rest piece : List Char),
      splitCS (m ++ rest) piece = splitCS rest (m.reverse ++ piece) := by
  induction m with
  | nil => intro rest piece; simp
  | cons c ms ih =>
    intro rest piece
    have hc : c ≠ ',' := hm c (List.mem_cons_self _ _)
    have ih' := ih fun d hd => hm d (List.mem_cons_of_mem _ hd)
    cases hmr : ms ++ rest with
    | nil =>
      obtain ⟨rfl, rfl⟩ := List.append_eq_nil.mp hmr
      simp [splitCS]
    | cons d t =>
      show splitCS (c :: (ms ++ rest)) piece = _
      rw [hmr, splitCS_cons₂, if_neg (by tauto), ← hmr, ih' rest (c :: piece)]
      simp

theorem splitCS_joinCS :
    ∀ (l : List (List Char)), l ≠ [] → (∀ m ∈ l, ∀ c ∈ m, c ≠ ',') →
      splitCS (joinCS l) [] = l := by
  intro l
  induction l with
  | nil => intro h; exact absurd rfl h
  | cons m rest ih =>
    intro _ hsafe
    cases rest with
    | nil =>
      show splitCS m [] = [m]
      have h := splitCS_skip (hsafe m (List.mem_cons_self _ _)) [] []
      rw [List.append_nil] at h
      rw [h]
      simp [splitCS]
    | cons m2 t =>
      show splitCS (m ++ ',' :: ' ' :: joinCS (m2 :: t)) [] = m :: m2 :: t
      rw [splitCS_skip (hsafe m (List.mem_cons_self _ _)) _ [],
        splitCS_cons₂, if_pos ⟨rfl, rfl⟩,
        ih (by simp) fun m' hm' => hsafe m' (List.mem_cons_of_mem _ hm')]
      simp


theorem lexLe_total (a b : List Char) : lexLe a b = true ∨ lexLe b a = true := by
  induction a generalizing b with
  | nil => left; rfl
  | cons x xs ih =>
    cases b with
    | nil => right; rfl
    | cons y ys =>
      by_cases hxy : x = y
      · subst hxy
        simpa [lexLe] using ih ys
      · rcases lt_trichotomy x y with h | h | h
        · left; simp [lexLe, hxy, h]
        · exact absurd h hxy
        · right; simp [lexLe, Ne.symm hxy, h]

theorem lexLe_trans {a b c : List Char} :
    lexLe a b = true → lexLe b c = true → lexLe a c = true := by
  induction a generalizing b c with
  | nil => intro _ _; rfl
  | cons x xs ih =>
    intro h1 h2
    cases b with
    | nil => simp [lexLe] at h1
    | cons y ys =>
      cases c with
      | nil => simp [lexLe] at h2
      | cons z zs =>
        by_cases hxy : x = y
        · subst hxy
          simp only [lexLe, if_pos rfl] at h1
          by_cases hyz : x = z
          · subst hyz
            simp only [lexLe, if_pos rfl] at h2 ⊢
            exact ih h1 h2
          · simp only [lexLe, if_neg hyz] at h2 ⊢
            exact h2
        · simp only [lexLe, if_neg hxy] at h1
          by_cases hyz : y = z
          · subst hyz
            simp only [lexLe, if_neg hxy]
            exact h1
          · simp only [lexLe, if_neg hyz] at h2
            have hxz : x < z := lt_trans (by simpa using h1) (by simpa using h2)
            simp only [lexLe, if_neg (ne_of_lt hxz)]
            simpa using hxz

theorem lexLe_antisymm {a b : List Char} :
    lexLe a b = true → lexLe b a = true → a = b := by
  induction a generalizing b with
  | nil =>
    intro _ h2
    cases b with
    | nil => rfl
    | cons y ys => simp [lexLe] at h2
  | cons x xs ih =>
    intro h1 h2
    cases b with
    | nil => simp [lexLe] at h1
    | cons y ys =>
      by_cases hxy : x = y
      · subst hxy
        simp only [lexLe, if_pos rfl] at h1 h2
        rw [ih h1 h2]
      · simp only [lexLe, if_neg hxy, if_neg (Ne.symm hxy)] at h1 h2
        exact absurd (lt_trans (by simpa using h1) (by simpa using h2)) (lt_irrefl x)

theorem sortLe_sorted (l : List (List Char)) : List.Sorted strLe (sortLe l) :=
  @List.sorted_insertionSort _ strLe _
    ⟨fun a b => lexLe_total a b⟩ ⟨fun _ _ _ => lexLe_trans⟩ l

theorem sortLe_eq_of_perm {l1 l2 : List (List Char)} (h : l1.Perm l2) :
    sortLe l1 = sortLe l2 :=
  @List.eq_of_perm_of_sorted _ strLe ⟨fun _ _ => lexLe_antisymm⟩ _ _
    ((sortLe_perm l1).trans (h.trans (sortLe_perm l2).symm))
    (sortLe_sorted l1) (sortLe_sorted l2)


theorem joinCS_ne_nil {m : List Char} (hm : m ≠ []) (rest : List (List Char)) :
    joinCS (m :: rest) ≠ [] := by
  cases rest with
  | nil => simpa [joinCS] using hm
  | cons m2 t =>
    show m ++ ',' :: ' ' :: joinCS (m2 :: t) ≠ []
    simp

theorem joinCS_mem :
    ∀ {l : List (List Char)} {c : Char}, c ∈ joinCS l →
      (∃ m ∈ l, c ∈ m) ∨ c = ',' ∨ c = ' ' := by
  intro l
  induction l with
  | nil => intro c hc; simp [joinCS] at hc
  | cons m rest ih =>
    intro c hc
    cases rest with
    | nil =>
      exact Or.inl ⟨m, List.mem_cons_self _ _, by simpa [joinCS] using hc⟩
    | cons m2 t =>
      rw [show joinCS (m :: m2 :: t) = m ++ ',' :: ' ' :: joinCS (m2 :: t) from rfl,
        List.mem_append] at hc
      rcases hc with hc | hc
      · exact Or.inl ⟨m, List.mem_cons_self _ _, hc⟩
      · rcases List.mem_cons.mp hc with rfl | hc
        · exact Or.inr (Or.inl rfl)
        · rcases List.mem_cons.mp hc with rfl | hc
          · exact Or.inr (Or.inr rfl)
          · rcases ih hc with ⟨m', hm', hcm⟩ | h
            · exact Or.inl ⟨m', List.mem_cons_of_mem _ hm', hcm⟩
            · exact Or.inr h

theorem fixSet_wrap_sorts {l : List (List Char)} (hl : l ≠ [])
    (hm : ∀ m ∈ l, m ≠ [] ∧ ∀ c ∈ m, c ≠ '\n' ∧ c ≠ '[' ∧ c ≠ ',') :
    fixSet (setOpen ++ joinCS l ++ setClose)
      = setOpen ++ joinCS (sortLe l) ++ setClose := by
  obtain ⟨m0, rest0, rfl⟩ : ∃ m0 rest0, l = m0 :: rest0 := by
    cases l with
    | nil => exact absurd rfl hl
    | cons a b => exact ⟨a, b, rfl⟩
  have hjne : joinCS (m0 :: rest0) ≠ [] :=
    joinCS_ne_nil (hm m0 (List.mem_cons_self _ _)).1 rest0
  have hjsafe : ∀ c ∈ joinCS (m0 :: rest0), c ≠ '\n' ∧ c ≠ '[' := by
    intro c hc
    rcases joinCS_mem hc with ⟨m', hm', hcm⟩ | rfl | rfl
    · exact ⟨((hm m' hm').2 c hcm).1, ((hm m' hm').2 c hcm).2.1⟩
    · exact ⟨by decide, by decide⟩
    · exact ⟨by decide, by decide⟩
  unfold fixSet
  rw [splitSet_wrap hjne hjsafe]
  show setOpen ++ joinCS (sortLe (splitCS (joinCS (m0 :: rest0)) [])) ++ setClose = _
  rw [splitCS_joinCS (m0 :: rest0) hl fun m hm' c hc => ((hm m hm').2 c hc).2.2]

/-- C3: order-independence of `fixSet` on safe member lists: wrapping the
`", "`-join of a nonempty member list (members nonempty, without newline,
`[` or `,`) in `<in set([` … `])>` yields the wrap of the lexically
sorted list, so any permutation of the members gives the same result. -/
theorem fixSet_order_indep (l1 l2 : List (List Char)) (hne : l1 ≠ [])
    (hmem : ∀ m ∈ l1, m ≠ [] ∧ ∀ c ∈ m, c ≠ '\n' ∧ c ≠ '[' ∧ c ≠ ',')
    (hperm : l1.Perm l2) :
    fixSet (setOpen ++ joinCS l1 ++ setClose)
      = setOpen ++ joinCS (sortLe l1) ++ setClose
    ∧ List.Sorted strLe (sortLe l1)
    ∧ fixSet (setOpen ++ joinCS l1 ++ setClose)
        = fixSet (setOpen ++ joinCS l2 ++ setClose) := by
  have hne2 : l2 ≠ [] := by
    intro h
    subst h
    exact hne hperm.eq_nil
  have hmem2 : ∀ m ∈ l2, m ≠ [] ∧ ∀ c ∈ m, c ≠ '\n' ∧ c ≠ '[' ∧ c ≠ ',' :=
    fun m hm' => hmem m (hperm.mem_iff.mpr hm')
  refine ⟨fixSet_wrap_sorts hne hmem, sortLe_sorted l1, ?_⟩
  rw [fixSet_wrap_sorts hne hmem, fixSet_wrap_sorts hne2 hmem2,
    sortLe_eq_of_perm hperm]

/-- Witness for C3: the two permutations `[b, a]` and `[a, b]` both
canonicalize to `<in set([a, b])>`. -/
theorem fixSet_order_indep_witness :
    fixSet ("<in set([b, a])>".data) = fixSet ("<in set([a, b])>".data) :=
  (fixSet_order_indep [("b".data), ("a".data)] [("a".data), ("b".data)]
    (by decide) (by decide) (by decide)).2.2

/-- C3 (counterexample): when the text after the closing delimiter
contains another `])>`, the greedy content runs to the last `])>`, and two
inputs whose member lists are permutations of each other (with identical
prefix and suffix) canonicalize differently. -/
theorem fixSet_order_indep_cex :
    fixSet ("<in set([a, b])>x])>".data) ≠ fixSet ("<in set([b, a])>x])>".data)
    ∧ fixSet ("<in set([a, b])>x])>".data) = ("<in set([a, b])>x])>".data)
    ∧ fixSet ("<in set([b, a])>x])>".data) = ("<in set([a])>x, b])>".data) := by decide

end TestCommon
